import Mathlib

/-!
Shallow embedding of the bit-to-3D-coordinate mapping engine of
`binary_to_3d.py` (NVStorage). Bytes are natural numbers (0..255 in actual
use); bits are extracted most-significant-bit first. The process-wide
pseudo-random generator of the reference is made explicit: the shuffle used
by the randomized-position strategy is a function parameter, and the
per-bit coordinate draws of the randomized-assignment strategy are an
oracle `draws : Nat → Coord` giving the triple produced by the three
`randint` calls for the i-th drawn bit.
-/

namespace NVStorage

/-- A grid coordinate (x, y, z). -/
abbrev Coord := Nat × Nat × Nat

/-- One output record: a coordinate together with the bit stored there. -/
abbrev Entry := Coord × Nat

/-- The eight bits of a byte, most-significant first:
bit `i` is `(byte >> (7 - i)) & 1` (source line 37 / 106 / 164). -/
def byteBits (b : Nat) : List Nat :=
  (List.range 8).map (fun i => (b >>> (7 - i)) &&& 1)

/-- Decoding of a linear position into a coordinate, source lines 41-43:
`x = position % max_x`, `y = (position // max_x) % max_y`,
`z = position // (max_x * max_y)`. -/
def decode (maxX maxY : Nat) (position : Nat) : Coord :=
  (position % maxX, (position / maxX) % maxY, position / (maxX * maxY))

/-- Re-encoding of a coordinate into a linear index,
`x + y*max_x + z*max_x*max_y` (row-major with x fastest). -/
def encode (maxX maxY : Nat) (c : Coord) : Nat :=
  c.1 + c.2.1 * maxX + c.2.2 * (maxX * maxY)

/-- The full coordinate list `list(product(range(max_x), range(max_y),
range(max_z)))` (source lines 89 and 187): z varies fastest, as with
`itertools.product`. -/
def coordProduct (maxX maxY maxZ : Nat) : List Coord :=
  (List.range maxX).flatMap (fun x =>
    (List.range maxY).flatMap (fun y =>
      (List.range maxZ).map (fun z => (x, y, z))))

/-! ### Sequential strategy (source lines 9-64) -/

/-- Inner loop of the sequential strategy over the bits of one byte
(source lines 35-53), carrying the running `bit_position`. Returns the
entries produced, the final `bit_position`, and whether the early
`return` (grid full, line 52) fired. -/
def seqInner (maxX maxY total : Nat) : List Nat → Nat → List Entry × Nat × Bool
  | [], pos => ([], pos, false)
  | bit :: rest, pos =>
    let e : Entry := (decode maxX maxY (pos % total), bit)
    if pos + 1 ≥ total then
      ([e], pos + 1, true)
    else
      let r := seqInner maxX maxY total rest (pos + 1)
      (e :: r.1, r.2.1, r.2.2)

/-- Outer loop of the sequential strategy over the bytes (source lines
33-53), carrying the byte index. Returns the entries, `some byte_idx`
when the early return fired, and the final `bit_position`. -/
def seqOuter (maxX maxY total : Nat) : List Nat → Nat → Nat → List Entry × Option Nat × Nat
  | [], _, pos => ([], none, pos)
  | byte :: rest, bidx, pos =>
    let r := seqInner maxX maxY total (byteBits byte) pos
    if r.2.2 then
      (r.1, some bidx, r.2.1)
    else
      let r2 := seqOuter maxX maxY total rest (bidx + 1) r.2.1
      (r.1 ++ r2.1, r2.2.1, r2.2.2)

/-- `binary_to_3d_sequential` (source lines 9-64). Returns the entry list
plus the diagnostic pair: the last-consumed byte index (an `Int`, since the
fall-through return yields `len(binary_data) - 1`, which is `-1` on empty
input) and the total byte count. -/
def binary_to_3d_sequential (binary_data : List Nat) (dimensions : Coord)
    (fill_empty : Bool) (default_bit : Nat) : List Entry × Int × Nat :=
  match dimensions with
  | (max_x, max_y, max_z) =>
    let total_positions := max_x * max_y * max_z
    let r := seqOuter max_x max_y total_positions binary_data 0 0
    match r.2.1 with
    | some byte_idx => (r.1, (byte_idx : Int), binary_data.length)
    | none =>
      let result :=
        if fill_empty ∧ r.2.2 < total_positions then
          r.1 ++ (List.range' r.2.2 (total_positions - r.2.2)).map
            (fun position => (decode max_x max_y position, default_bit))
        else r.1
      (result, (binary_data.length : Int) - 1, binary_data.length)

/-! ### Randomized-position strategy (source lines 66-127) -/

/-- Inner loop of the randomized-position strategy over the bits of one
byte (source lines 104-118): while `bit_position < total_positions` the
next shuffled coordinate is consumed; otherwise the early return fires. -/
def rpInner (all_coords : List Coord) (total : Nat) :
    List Nat → Nat → List Entry × Nat × Bool
  | [], pos => ([], pos, false)
  | bit :: rest, pos =>
    if pos < total then
      let e : Entry := (all_coords.getD pos (0, 0, 0), bit)
      let r := rpInner all_coords total rest (pos + 1)
      (e :: r.1, r.2.1, r.2.2)
    else
      ([], pos, true)

/-- Outer loop of the randomized-position strategy over the bytes (source
lines 102-118). -/
def rpOuter (all_coords : List Coord) (total : Nat) :
    List Nat → Nat → Nat → List Entry × Option Nat × Nat
  | [], _, pos => ([], none, pos)
  | byte :: rest, bidx, pos =>
    let r := rpInner all_coords total (byteBits byte) pos
    if r.2.2 then
      (r.1, some bidx, r.2.1)
    else
      let r2 := rpOuter all_coords total rest (bidx + 1) r.2.1
      (r.1 ++ r2.1, r2.2.1, r2.2.2)

/-- `binary_to_3d_random_positions` (source lines 66-127). The effect of
`random.shuffle` on the coordinate list is the explicit parameter
`shuffle`; `total_positions = len(all_coords)` as at source line 95. -/
def binary_to_3d_random_positions (binary_data : List Nat) (dimensions : Coord)
    (fill_empty : Bool) (default_bit : Nat)
    (shuffle : List Coord → List Coord) : List Entry × Int × Nat :=
  match dimensions with
  | (max_x, max_y, max_z) =>
    let all_coords := shuffle (coordProduct max_x max_y max_z)
    let total_positions := all_coords.length
    let r := rpOuter all_coords total_positions binary_data 0 0
    match r.2.1 with
    | some byte_idx => (r.1, (byte_idx : Int), binary_data.length)
    | none =>
      let result :=
        if fill_empty ∧ r.2.2 < total_positions then
          r.1 ++ (List.range' r.2.2 (total_positions - r.2.2)).map
            (fun i => (all_coords.getD i (0, 0, 0), default_bit))
        else r.1
      (result, (binary_data.length : Int) - 1, binary_data.length)

/-! ### Randomized-assignment strategy (source lines 129-198) -/

/-- Insertion into the `result_dict` of the randomized-assignment strategy
(source line 172): a Python dict keeps the first-insertion order of keys
and overwrites the value in place. -/
def dictInsert (d : List (Coord × Nat)) (k : Coord) (v : Nat) : List (Coord × Nat) :=
  if d.any (fun p => decide (p.1 = k)) then
    d.map (fun p => if p.1 = k then (k, v) else p)
  else
    d ++ [(k, v)]

/-- Lookup `result_dict.get((x, y, z), default_bit)` (source line 192). -/
def dictGet (d : List (Coord × Nat)) (k : Coord) (default_bit : Nat) : Nat :=
  match d.find? (fun p => decide (p.1 = k)) with
  | some p => p.2
  | none => default_bit

/-- Inner loop of the randomized-assignment strategy over the bits of one
byte (source lines 162-179), carrying `bit_count` and the dictionary; the
flag records the `break` at `bit_count >= total_positions`. -/
def raInner (draws : Nat → Coord) (total : Nat) :
    List Nat → Nat → List (Coord × Nat) → List (Coord × Nat) × Nat × Bool
  | [], cnt, d => (d, cnt, false)
  | bit :: rest, cnt, d =>
    let d2 := dictInsert d (draws cnt) bit
    if cnt + 1 ≥ total then
      (d2, cnt + 1, true)
    else
      raInner draws total rest (cnt + 1) d2

/-- Outer loop of the randomized-assignment strategy over the bytes
(source lines 160-182): the outer `break` re-checks the same condition. -/
def raOuter (draws : Nat → Coord) (total : Nat) :
    List Nat → Nat → List (Coord × Nat) → List (Coord × Nat) × Nat
  | [], cnt, d => (d, cnt)
  | byte :: rest, cnt, d =>
    let r := raInner draws total (byteBits byte) cnt d
    if r.2.2 then (r.1, r.2.1)
    else raOuter draws total rest r.2.1 r.1

/-- `binary_to_3d_random_assignment` (source lines 129-198). The three
`randint` calls for the i-th drawn bit are the oracle value `draws i`. -/
def binary_to_3d_random_assignment (binary_data : List Nat) (dimensions : Coord)
    (fill_empty : Bool) (default_bit : Nat)
    (draws : Nat → Coord) : List Entry × Int × Nat :=
  match dimensions with
  | (max_x, max_y, max_z) =>
    let total_positions := max_x * max_y * max_z
    let r := raOuter draws total_positions binary_data 0 []
    let result_dict := r.1
    let result :=
      if fill_empty then
        (coordProduct max_x max_y max_z).map
          (fun c => (c, dictGet result_dict c default_bit))
      else
        result_dict
    (result, (binary_data.length : Int) - 1, binary_data.length)

/-! ### The caller `binary_to_3d` (source lines 200-266, minus file I/O) -/

/-- Comparison key used at source line 241: sort by (z, y, x). -/
def keyLe (a b : Entry) : Bool :=
  decide (a.1.2.2 < b.1.2.2 ∨ (a.1.2.2 = b.1.2.2 ∧
    (a.1.2.1 < b.1.2.1 ∨ (a.1.2.1 = b.1.2.1 ∧ a.1.1 ≤ b.1.1))))

/-- Stable insertion of an entry into a (z, y, x)-sorted list. -/
def sortInsert (e : Entry) : List Entry → List Entry
  | [] => [e]
  | x :: xs => if keyLe e x then e :: x :: xs else x :: sortInsert e xs

/-- Stable sort by (z, y, x) of the result list (source line 241). -/
def sortEntries : List Entry → List Entry
  | [] => []
  | x :: xs => sortInsert x (sortEntries xs)

/-- The truncation warning condition of source line 252:
`last_byte_idx < total_bytes - 1 and not fill_empty`. -/
def truncationWarning (last_byte_idx : Int) (total_bytes : Nat)
    (fill_empty : Bool) : Bool :=
  decide (last_byte_idx < (total_bytes : Int) - 1) && !fill_empty

/-- The caller `binary_to_3d` (source lines 200-266) restricted to its
pure content: dispatch on the mapping mode (an unknown mode is the only
configuration error, lines 235-237), strategy invocation, and the
(z, y, x) sort applied to the two randomized modes (lines 240-241). The
binary data is passed directly, file reading being external. -/
def binary_to_3d (mapping_mode : String) (binary_data : List Nat)
    (dimensions : Coord) (fill_empty : Bool) (default_bit : Nat)
    (shuffle : List Coord → List Coord) (draws : Nat → Coord) :
    Except String (List Entry × Int × Nat) :=
  let picked :=
    if mapping_mode = "sequential" then
      some (binary_to_3d_sequential binary_data dimensions fill_empty default_bit)
    else if mapping_mode = "random_positions" then
      some (binary_to_3d_random_positions binary_data dimensions fill_empty
        default_bit shuffle)
    else if mapping_mode = "random_assignment" then
      some (binary_to_3d_random_assignment binary_data dimensions fill_empty
        default_bit draws)
    else none
  match picked with
  | none => Except.error "Unknown mapping mode"
  | some (result, last_byte_idx, total_bytes) =>
    let sorted :=
      if mapping_mode = "random_positions" ∨ mapping_mode = "random_assignment" then
        sortEntries result
      else result
    Except.ok (sorted, last_byte_idx, total_bytes)

/-- Number of distinct coordinates appearing in a result list. -/
def distinctCoords (l : List Entry) : Nat :=
  (l.map Prod.fst).toFinset.card

/-! ### A deterministic stand-in for the seeded library PRNG -/

/-- Modelled from the spec: the reference seeds the process-wide
pseudo-random generator (`random.seed(seed)`, source lines 81-83) and the
subsequent `random.shuffle` is then a deterministic function of the seed;
the generator itself is Python library code outside this repository, so it
is modelled by an explicit 64-bit linear-congruential step. -/
def lcgStep (s : Nat) : Nat :=
  (6364136223846793005 * s + 1442695040888963407) % 18446744073709551616

/-- Modelled from the spec: a Fisher-Yates style shuffle driven by
`lcgStep`, standing in for the seeded `random.shuffle`. The fuel is the
list length, so every element is placed. -/
def seededShuffleAux {α : Type} : Nat → Nat → List α → List α
  | 0, _, l => l
  | fuel + 1, s, l =>
    match l.get? (s % l.length) with
    | none => l
    | some x => x :: seededShuffleAux fuel (lcgStep s) (l.eraseIdx (s % l.length))

/-- Modelled from the spec: the effect of `random.seed(seed)` followed by
`random.shuffle` on a list, as a deterministic function of the seed. -/
def seededShuffle {α : Type} (seed : Nat) (l : List α) : List α :=
  seededShuffleAux l.length (lcgStep seed) l

/-- The randomized-position strategy run with an explicit integer seed,
the seeded PRNG being modelled by `seededShuffle`. -/
def binary_to_3d_random_positions_seeded (binary_data : List Nat)
    (dimensions : Coord) (fill_empty : Bool) (default_bit : Nat)
    (seed : Nat) : List Entry × Int × Nat :=
  binary_to_3d_random_positions binary_data dimensions fill_empty default_bit
    (seededShuffle seed)

/-! ### Basic lemmas -/

theorem byteBits_length (b : Nat) : (byteBits b).length = 8 := by
  simp [byteBits]

theorem byteBits_ne_nil (b : Nat) : byteBits b ≠ [] := by
  intro h
  have := byteBits_length b
  rw [h] at this
  simp at this

/-- The round-trip re-encoding identity, unconditionally over naturals. -/
theorem encode_decode_aux (mx my : Nat) (i : Nat) :
    encode mx my (decode mx my i) = i := by
  unfold encode decode
  simp only
  rw [← Nat.div_div_eq_div_mul]
  have h2 := Nat.mod_add_div (i / mx) my
  have h3 := Nat.mod_add_div i mx
  calc i % mx + i / mx % my * mx + i / mx / my * (mx * my)
      = i % mx + mx * (i / mx % my + my * (i / mx / my)) := by ring
    _ = i % mx + mx * (i / mx) := by rw [h2]
    _ = i := h3

theorem decode_encode_aux {mx my mz x y z : Nat}
    (hx : x < mx) (hy : y < my) (hz : z < mz) :
    decode mx my (encode mx my (x, y, z)) = (x, y, z) := by
  have hmx : 0 < mx := Nat.lt_of_le_of_lt (Nat.zero_le _) hx
  have hmy : 0 < my := Nat.lt_of_le_of_lt (Nat.zero_le _) hy
  have hq : x + y * mx + z * (mx * my) = x + mx * (y + my * z) := by ring
  unfold encode decode
  simp only [hq]
  have e1 : (x + mx * (y + my * z)) % mx = x := by
    rw [Nat.add_mul_mod_self_left, Nat.mod_eq_of_lt hx]
  have e2 : (x + mx * (y + my * z)) / mx = y + my * z := by
    rw [Nat.add_mul_div_left _ _ hmx, Nat.div_eq_of_lt hx, Nat.zero_add]
  have e3 : (y + my * z) % my = y := by
    rw [Nat.add_mul_mod_self_left, Nat.mod_eq_of_lt hy]
  have e4 : (x + mx * (y + my * z)) / (mx * my) = z := by
    rw [← Nat.div_div_eq_div_mul, e2, Nat.add_mul_div_left _ _ hmy,
      Nat.div_eq_of_lt hy, Nat.zero_add]
  rw [e1, e2, e3, e4]

theorem encode_lt {mx my mz x y z : Nat}
    (hx : x < mx) (hy : y < my) (hz : z < mz) :
    encode mx my (x, y, z) < mx * my * mz := by
  unfold encode
  simp only
  have h1 : (1 + y) * mx ≤ my * mx := Nat.mul_le_mul_right mx (by omega)
  have h2 : (1 + z) * (mx * my) ≤ mz * (mx * my) := Nat.mul_le_mul_right _ (by omega)
  have key : x + y * mx + z * (mx * my) + 1 ≤ mx * my * mz := by
    calc x + y * mx + z * (mx * my) + 1
        ≤ mx + y * mx + z * (mx * my) := by omega
      _ = (1 + y) * mx + z * (mx * my) := by ring
      _ ≤ my * mx + z * (mx * my) := by omega
      _ = (1 + z) * (mx * my) := by ring
      _ ≤ mz * (mx * my) := h2
      _ = mx * my * mz := by ring
  omega

theorem mem_coordProduct {mx my mz : Nat} {c : Coord} :
    c ∈ coordProduct mx my mz ↔ c.1 < mx ∧ c.2.1 < my ∧ c.2.2 < mz := by
  obtain ⟨x, y, z⟩ := c
  simp only [coordProduct, List.mem_flatMap, List.mem_map, List.mem_range]
  constructor
  · rintro ⟨a, ha, b, hb, d, hd, heq⟩
    obtain ⟨rfl, rfl, rfl⟩ := Prod.mk.injEq .. ▸ heq
    simp_all [Prod.ext_iff]
  · rintro ⟨hx, hy, hz⟩
    exact ⟨x, hx, y, hy, z, hz, rfl⟩

theorem coordProduct_length (mx my mz : Nat) :
    (coordProduct mx my mz).length = mx * my * mz := by
  simp only [coordProduct, List.length_flatMap, List.map_map, Function.comp_def,
    List.length_map, List.length_range, List.map_const', List.sum_replicate,
    smul_eq_mul]
  ring

theorem coordProduct_nodup (mx my mz : Nat) :
    (coordProduct mx my mz).Nodup := by
  unfold coordProduct
  rw [List.nodup_flatMap]
  refine ⟨?_, ?_⟩
  · intro x _
    rw [List.nodup_flatMap]
    refine ⟨?_, ?_⟩
    · intro y _
      exact (List.nodup_range mz).map (fun a b h => by simpa using h)
    · refine (List.pairwise_lt_range my).imp ?_
      intro a b hab p hpa hpb
      simp only [List.mem_map, List.mem_range] at hpa hpb
      obtain ⟨za, _, rfl⟩ := hpa
      obtain ⟨zb, _, hEq⟩ := hpb
      have hba : b = a := by
        injection hEq with h1 h2
        injection h2 with h3 h4
      omega
  · refine (List.pairwise_lt_range mx).imp ?_
    intro a b hab p hpa hpb
    simp only [List.mem_flatMap, List.mem_map, List.mem_range] at hpa hpb
    obtain ⟨ya, _, za, _, rfl⟩ := hpa
    obtain ⟨yb, _, zb, _, hEq⟩ := hpb
    have hba : b = a := by
      injection hEq with h1 h2
    omega

theorem decode_mem_coordProduct {mx my mz p : Nat}
    (hmx : 0 < mx) (hmy : 0 < my) (hp : p < mx * my * mz) :
    decode mx my p ∈ coordProduct mx my mz := by
  rw [mem_coordProduct]
  unfold decode
  refine ⟨Nat.mod_lt _ hmx, Nat.mod_lt _ hmy, ?_⟩
  simp only
  rw [Nat.div_lt_iff_lt_mul (Nat.mul_pos hmx hmy)]
  calc p < mx * my * mz := hp
    _ = mz * (mx * my) := by ring

/-! ### Sequential strategy invariants -/

theorem range'_map_append {α : Type} (f : Nat → α) (a b c : Nat)
    (hab : a ≤ b) (hbc : b ≤ c) :
    (List.range' a (b - a)).map f ++ (List.range' b (c - b)).map f =
      (List.range' a (c - a)).map f := by
  rw [← List.map_append]
  congr 1
  have h := List.range'_append a (b - a) (c - b) 1
  rw [show a + 1 * (b - a) = b by omega] at h
  rw [h]
  congr 1
  omega

theorem seqInner_spec (mx my total : Nat) (bits : List Nat) :
    ∀ pos, pos < total →
    (seqInner mx my total bits pos).1.map Prod.fst =
      (List.range' pos ((seqInner mx my total bits pos).2.1 - pos)).map
        (fun i => decode mx my (i % total)) ∧
    (seqInner mx my total bits pos).1.length =
      (seqInner mx my total bits pos).2.1 - pos ∧
    pos ≤ (seqInner mx my total bits pos).2.1 ∧
    (seqInner mx my total bits pos).2.1 ≤ pos + bits.length ∧
    ((seqInner mx my total bits pos).2.2 = true →
      (seqInner mx my total bits pos).2.1 = total) ∧
    ((seqInner mx my total bits pos).2.2 = false →
      (seqInner mx my total bits pos).2.1 = pos + bits.length ∧
      (seqInner mx my total bits pos).2.1 < total) := by
  induction bits with
  | nil =>
    intro pos h
    simp [seqInner]
    omega
  | cons bit rest ih =>
    intro pos h
    by_cases hge : pos + 1 ≥ total
    · have htot : pos + 1 = total := by omega
      simp only [seqInner, if_pos hge]
      have h1 : pos + 1 - pos = 1 := by omega
      refine ⟨?_, ?_, ?_, ?_, fun _ => htot, ?_⟩
      · simp [h1, List.range'_one]
      · simp [h1]
      · omega
      · simp only [List.length_cons]
        omega
      · simp
    · obtain ⟨ihA, ihB, ihC, ihD, ihE, ihF⟩ := ih (pos + 1) (by omega)
      simp only [seqInner, if_neg hge]
      refine ⟨?_, ?_, by omega, by simp only [List.length_cons]; omega, ?_, ?_⟩
      · have hsplit : (seqInner mx my total rest (pos + 1)).2.1 - pos =
            ((seqInner mx my total rest (pos + 1)).2.1 - (pos + 1)) + 1 := by omega
        simp only [List.map_cons, hsplit, List.range'_succ, ihA]
      · simp only [List.length_cons, ihB]
        omega
      · intro hfl
        exact ihE hfl
      · intro hfl
        obtain ⟨hf1, hf2⟩ := ihF hfl
        constructor
        · simp only [hf1, List.length_cons]
          omega
        · exact hf2

theorem seqOuter_spec (mx my total : Nat) (data : List Nat) :
    ∀ bidx pos, pos < total →
    (seqOuter mx my total data bidx pos).1.map Prod.fst =
      (List.range' pos ((seqOuter mx my total data bidx pos).2.2 - pos)).map
        (fun i => decode mx my (i % total)) ∧
    (seqOuter mx my total data bidx pos).1.length =
      (seqOuter mx my total data bidx pos).2.2 - pos ∧
    pos ≤ (seqOuter mx my total data bidx pos).2.2 ∧
    (seqOuter mx my total data bidx pos).2.2 ≤ pos + 8 * data.length ∧
    (∀ b, (seqOuter mx my total data bidx pos).2.1 = some b →
      (seqOuter mx my total data bidx pos).2.2 = total ∧
      bidx ≤ b ∧ b + 1 ≤ bidx + data.length ∧
      total ≤ pos + 8 * (b - bidx) + 8) ∧
    ((seqOuter mx my total data bidx pos).2.1 = none →
      (seqOuter mx my total data bidx pos).2.2 = pos + 8 * data.length ∧
      (seqOuter mx my total data bidx pos).2.2 < total) := by
  induction data with
  | nil =>
    intro bidx pos h
    simp [seqOuter]
    omega
  | cons byte rest ih =>
    intro bidx pos h
    obtain ⟨iA, iB, iC, iD, iE, iF⟩ := seqInner_spec mx my total (byteBits byte) pos h
    rw [byteBits_length] at iD iF
    by_cases hfl : (seqInner mx my total (byteBits byte) pos).2.2 = true
    · have htot := iE hfl
      simp only [seqOuter]
      rw [if_pos hfl]
      dsimp only
      refine ⟨iA, iB, iC, ?_, ?_, ?_⟩
      · simp only [List.length_cons]
        omega
      · intro b hb
        have hbb : bidx = b := by
          simpa using hb
        subst hbb
        refine ⟨htot, Nat.le_refl _, ?_, ?_⟩
        · simp only [List.length_cons]
          omega
        · simp only [Nat.sub_self, Nat.mul_zero, Nat.zero_add]
          omega
      · intro hb
        simp at hb
    · have hfl' : ¬ ((seqInner mx my total (byteBits byte) pos).2.2 = true) := hfl
      have hflf : (seqInner mx my total (byteBits byte) pos).2.2 = false := by
        simpa using hfl
      obtain ⟨hf1, hf2⟩ := iF hflf
      obtain ⟨jA, jB, jC, jD, jE, jF⟩ :=
        ih (bidx + 1) (seqInner mx my total (byteBits byte) pos).2.1 hf2
      simp only [seqOuter]
      rw [if_neg hfl']
      dsimp only
      refine ⟨?_, ?_, ?_, ?_, ?_, ?_⟩
      · rw [List.map_append, iA, jA, range'_map_append _ _ _ _ iC jC]
      · simp only [List.length_append, iB, jB]
        omega
      · omega
      · simp only [List.length_cons]
        omega
      · intro b hb
        obtain ⟨k1, k2, k3, k4⟩ := jE b hb
        refine ⟨k1, by omega, ?_, ?_⟩
        · simp only [List.length_cons]
          omega
        · have h8 : 8 * (b - bidx) = 8 * (b - (bidx + 1)) + 8 := by omega
          omega
      · intro hb
        obtain ⟨k1, k2⟩ := jF hb
        refine ⟨?_, k2⟩
        simp only [k1, List.length_cons]
        omega

theorem decode_mod_mem {mx my mz i : Nat}
    (hmx : 0 < mx) (hmy : 0 < my) (hmz : 0 < mz) :
    decode mx my (i % (mx * my * mz)) ∈ coordProduct mx my mz := by
  have htot : 0 < mx * my * mz := by positivity
  exact decode_mem_coordProduct hmx hmy (Nat.mod_lt _ htot)

/-- With fill-empty on, the sequential result has exactly Capacity entries. -/
theorem seq_fill_length (data : List Nat) (mx my mz dflt : Nat)
    (hmx : 0 < mx) (hmy : 0 < my) (hmz : 0 < mz) :
    (binary_to_3d_sequential data (mx, my, mz) true dflt).1.length =
      mx * my * mz := by
  have htot : 0 < mx * my * mz := by positivity
  obtain ⟨sA, sB, sC, sD, sE, sF⟩ := seqOuter_spec mx my (mx * my * mz) data 0 0 htot
  unfold binary_to_3d_sequential
  dsimp only
  cases hopt : (seqOuter mx my (mx * my * mz) data 0 0).2.1 with
  | some b =>
    obtain ⟨k1, _, _, _⟩ := sE b hopt
    dsimp only
    omega
  | none =>
    obtain ⟨k1, k2⟩ := sF hopt
    dsimp only
    rw [if_pos ⟨rfl, k2⟩]
    simp only [List.length_append, List.length_map, List.length_range']
    omega

/-- Every coordinate produced by the sequential strategy lies in the grid. -/
theorem seq_coords_subset (data : List Nat) (mx my mz : Nat) (fill : Bool)
    (dflt : Nat) (hmx : 0 < mx) (hmy : 0 < my) (hmz : 0 < mz) :
    ∀ e ∈ (binary_to_3d_sequential data (mx, my, mz) fill dflt).1,
      e.1 ∈ coordProduct mx my mz := by
  have htot : 0 < mx * my * mz := by positivity
  obtain ⟨sA, sB, sC, sD, sE, sF⟩ := seqOuter_spec mx my (mx * my * mz) data 0 0 htot
  have hconsumed : ∀ e ∈ (seqOuter mx my (mx * my * mz) data 0 0).1,
      e.1 ∈ coordProduct mx my mz := by
    intro e he
    have : e.1 ∈ (seqOuter mx my (mx * my * mz) data 0 0).1.map Prod.fst :=
      List.mem_map_of_mem Prod.fst he
    rw [sA] at this
    obtain ⟨i, _, hi⟩ := List.mem_map.mp this
    rw [← hi]
    exact decode_mod_mem hmx hmy hmz
  unfold binary_to_3d_sequential
  dsimp only
  cases hopt : (seqOuter mx my (mx * my * mz) data 0 0).2.1 with
  | some b =>
    exact hconsumed
  | none =>
    dsimp only
    by_cases hcond : (fill = true) ∧
        (seqOuter mx my (mx * my * mz) data 0 0).2.2 < mx * my * mz
    · rw [if_pos hcond]
      intro e he
      rcases List.mem_append.mp he with hin | hin
      · exact hconsumed e hin
      · obtain ⟨p, hp, hpe⟩ := List.mem_map.mp hin
        rw [List.mem_range'_1] at hp
        rw [← hpe]
        exact decode_mem_coordProduct hmx hmy (by omega)
    · rw [if_neg hcond]
      exact hconsumed

/-- Grid cells not covered by the consumed bits (the fill-empty-off result)
appear with the default bit in the fill-empty-on sequential result. -/
theorem seq_unassigned_default (data : List Nat) (mx my mz dflt : Nat)
    (hmx : 0 < mx) (hmy : 0 < my) (hmz : 0 < mz) :
    ∀ c ∈ coordProduct mx my mz,
      c ∉ (binary_to_3d_sequential data (mx, my, mz) false dflt).1.map Prod.fst →
      (c, dflt) ∈ (binary_to_3d_sequential data (mx, my, mz) true dflt).1 := by
  have htot : 0 < mx * my * mz := by positivity
  obtain ⟨sA, sB, sC, sD, sE, sF⟩ := seqOuter_spec mx my (mx * my * mz) data 0 0 htot
  intro c hc hnc
  rw [mem_coordProduct] at hc
  obtain ⟨x, y, z⟩ := c
  obtain ⟨hx, hy, hz⟩ := hc
  have hlt : encode mx my (x, y, z) < mx * my * mz := encode_lt hx hy hz
  have hdec : decode mx my (encode mx my (x, y, z)) = (x, y, z) :=
    decode_encode_aux hx hy hz
  have hmem : ∀ k, encode mx my (x, y, z) < k →
      (x, y, z) ∈ (List.range' 0 k).map
        (fun i => decode mx my (i % (mx * my * mz))) := by
    intro k hk
    rw [List.mem_map]
    refine ⟨encode mx my (x, y, z), ?_, ?_⟩
    · rw [List.mem_range'_1]
      omega
    · rw [Nat.mod_eq_of_lt hlt, hdec]
  unfold binary_to_3d_sequential at hnc ⊢
  dsimp only at hnc ⊢
  cases hopt : (seqOuter mx my (mx * my * mz) data 0 0).2.1 with
  | some b =>
    rw [hopt] at hnc
    obtain ⟨k1, _, _, _⟩ := sE b hopt
    exfalso
    apply hnc
    rw [sA, Nat.sub_zero, k1]
    exact hmem _ hlt
  | none =>
    rw [hopt] at hnc
    obtain ⟨k1, k2⟩ := sF hopt
    dsimp only at hnc ⊢
    rw [if_neg (by simp)] at hnc
    rw [if_pos ⟨rfl, k2⟩]
    have hge : (seqOuter mx my (mx * my * mz) data 0 0).2.2 ≤
        encode mx my (x, y, z) := by
      by_contra hcon
      apply hnc
      rw [sA, Nat.sub_zero]
      exact hmem _ (by omega)
    apply List.mem_append_right
    rw [List.mem_map]
    refine ⟨encode mx my (x, y, z), ?_, ?_⟩
    · rw [List.mem_range'_1]
      omega
    · rw [hdec]

/-- The sequential diagnostic pair is `(len - 1, len)` whenever the whole
input fits, i.e. `8 * len ≤ Capacity`. -/
theorem seq_diag (data : List Nat) (mx my mz : Nat) (fill : Bool) (dflt : Nat)
    (h8 : 8 * data.length ≤ mx * my * mz) :
    (binary_to_3d_sequential data (mx, my, mz) fill dflt).2 =
      ((data.length : Int) - 1, data.length) := by
  cases data with
  | nil =>
    unfold binary_to_3d_sequential seqOuter
    dsimp only
  | cons byte rest =>
    have htot : 0 < mx * my * mz := by
      simp only [List.length_cons] at h8
      omega
    obtain ⟨sA, sB, sC, sD, sE, sF⟩ :=
      seqOuter_spec mx my (mx * my * mz) (byte :: rest) 0 0 htot
    unfold binary_to_3d_sequential
    dsimp only
    cases hopt : (seqOuter mx my (mx * my * mz) (byte :: rest) 0 0).2.1 with
    | some b =>
      obtain ⟨k1, k2, k3, k4⟩ := sE b hopt
      dsimp only
      have hb : b + 1 = (byte :: rest).length := by omega
      simp only [Prod.mk.injEq]
      refine ⟨?_, trivial⟩
      omega
    | none =>
      rfl

/-! ### Randomized-position strategy invariants -/

theorem rpInner_spec (L : List Coord) (total : Nat) (bits : List Nat) :
    ∀ pos, pos ≤ total →
    (rpInner L total bits pos).1.map Prod.fst =
      (List.range' pos ((rpInner L total bits pos).2.1 - pos)).map
        (fun i => L.getD i (0, 0, 0)) ∧
    (rpInner L total bits pos).1.length = (rpInner L total bits pos).2.1 - pos ∧
    pos ≤ (rpInner L total bits pos).2.1 ∧
    (rpInner L total bits pos).2.1 ≤ total ∧
    (rpInner L total bits pos).2.1 ≤ pos + bits.length ∧
    ((rpInner L total bits pos).2.2 = true →
      (rpInner L total bits pos).2.1 = total ∧
      (rpInner L total bits pos).2.1 - pos + 1 ≤ bits.length) ∧
    ((rpInner L total bits pos).2.2 = false →
      (rpInner L total bits pos).2.1 = pos + bits.length) := by
  induction bits with
  | nil =>
    intro pos h
    simp [rpInner]
    omega
  | cons bit rest ih =>
    intro pos h
    by_cases hlt : pos < total
    · obtain ⟨ihA, ihB, ihC, ihD, ihE, ihF, ihG⟩ := ih (pos + 1) (by omega)
      simp only [rpInner]
      rw [if_pos hlt]
      dsimp only
      refine ⟨?_, ?_, by omega, ihD, by simp only [List.length_cons]; omega, ?_, ?_⟩
      · have hsplit : (rpInner L total rest (pos + 1)).2.1 - pos =
            ((rpInner L total rest (pos + 1)).2.1 - (pos + 1)) + 1 := by omega
        simp only [List.map_cons, hsplit, List.range'_succ, ihA]
      · simp only [List.length_cons, ihB]
        omega
      · intro hfl
        obtain ⟨hf1, hf2⟩ := ihF hfl
        refine ⟨hf1, ?_⟩
        simp only [List.length_cons]
        omega
      · intro hfl
        have hf1 := ihG hfl
        simp only [List.length_cons]
        omega
    · simp only [rpInner]
      rw [if_neg hlt]
      dsimp only
      have hpt : pos = total := by omega
      refine ⟨by simp, by simp, by omega, by omega,
        by simp only [List.length_cons]; omega, ?_, by simp⟩
      intro _
      refine ⟨hpt, ?_⟩
      simp only [List.length_cons]
      omega

theorem rpOuter_spec (L : List Coord) (total : Nat) (data : List Nat) :
    ∀ bidx pos, pos ≤ total →
    (rpOuter L total data bidx pos).1.map Prod.fst =
      (List.range' pos ((rpOuter L total data bidx pos).2.2 - pos)).map
        (fun i => L.getD i (0, 0, 0)) ∧
    (rpOuter L total data bidx pos).1.length =
      (rpOuter L total data bidx pos).2.2 - pos ∧
    pos ≤ (rpOuter L total data bidx pos).2.2 ∧
    (rpOuter L total data bidx pos).2.2 ≤ total ∧
    (rpOuter L total data bidx pos).2.2 ≤ pos + 8 * data.length ∧
    (∀ b, (rpOuter L total data bidx pos).2.1 = some b →
      (rpOuter L total data bidx pos).2.2 = total ∧
      (rpOuter L total data bidx pos).2.2 - pos + 1 ≤ 8 * data.length) ∧
    ((rpOuter L total data bidx pos).2.1 = none →
      (rpOuter L total data bidx pos).2.2 = pos + 8 * data.length) := by
  induction data with
  | nil =>
    intro bidx pos h
    simp [rpOuter]
    omega
  | cons byte rest ih =>
    intro bidx pos h
    obtain ⟨iA, iB, iC, iD, iE, iF, iG⟩ := rpInner_spec L total (byteBits byte) pos h
    rw [byteBits_length] at iE iF iG
    by_cases hfl : (rpInner L total (byteBits byte) pos).2.2 = true
    · obtain ⟨hf1, hf2⟩ := iF hfl
      simp only [rpOuter]
      rw [if_pos hfl]
      dsimp only
      refine ⟨iA, iB, iC, iD, ?_, ?_, ?_⟩
      · simp only [List.length_cons]
        omega
      · intro b _
        refine ⟨hf1, ?_⟩
        simp only [List.length_cons]
        omega
      · intro hb
        simp at hb
    · have hflf : (rpInner L total (byteBits byte) pos).2.2 = false := by
        simpa using hfl
      have hf1 := iG hflf
      obtain ⟨jA, jB, jC, jD, jE, jF, jG⟩ :=
        ih (bidx + 1) (rpInner L total (byteBits byte) pos).2.1 iD
      simp only [rpOuter]
      rw [if_neg hfl]
      dsimp only
      refine ⟨?_, ?_, by omega, jD, ?_, ?_, ?_⟩
      · rw [List.map_append, iA, jA, range'_map_append _ _ _ _ iC jC]
      · simp only [List.length_append, iB, jB]
        omega
      · simp only [List.length_cons]
        omega
      · intro b hb
        obtain ⟨k1, k2⟩ := jF b hb
        refine ⟨k1, ?_⟩
        simp only [List.length_cons]
        omega
      · intro hb
        have k1 := jG hb
        simp only [List.length_cons]
        omega

/-- Characterization of the randomized-position result coordinates: they
are the first `K` entries of the shuffled list, with `K` the whole length
whenever fill-empty is on. -/
theorem rp_char (data : List Nat) (mx my mz : Nat) (fill : Bool) (dflt : Nat)
    (shuffle : List Coord → List Coord) :
    ∃ K, K ≤ (shuffle (coordProduct mx my mz)).length ∧
      (binary_to_3d_random_positions data (mx, my, mz) fill dflt
          shuffle).1.map Prod.fst =
        (List.range' 0 K).map
          (fun i => (shuffle (coordProduct mx my mz)).getD i (0, 0, 0)) ∧
      (fill = true → K = (shuffle (coordProduct mx my mz)).length) := by
  obtain ⟨sA, sB, sC, sD, sE, sF, sG⟩ :=
    rpOuter_spec (shuffle (coordProduct mx my mz))
      (shuffle (coordProduct mx my mz)).length data 0 0 (Nat.zero_le _)
  unfold binary_to_3d_random_positions
  dsimp only
  cases hopt : (rpOuter (shuffle (coordProduct mx my mz))
      (shuffle (coordProduct mx my mz)).length data 0 0).2.1 with
  | some b =>
    obtain ⟨k1, k2⟩ := sF b hopt
    refine ⟨(shuffle (coordProduct mx my mz)).length, Nat.le_refl _, ?_,
      fun _ => rfl⟩
    dsimp only
    rw [sA, Nat.sub_zero, k1]
  | none =>
    dsimp only
    by_cases hfill : fill = true
    · subst hfill
      by_cases hlt : (rpOuter (shuffle (coordProduct mx my mz))
          (shuffle (coordProduct mx my mz)).length data 0 0).2.2 <
          (shuffle (coordProduct mx my mz)).length
      · rw [if_pos ⟨rfl, hlt⟩]
        refine ⟨(shuffle (coordProduct mx my mz)).length, Nat.le_refl _, ?_,
          fun _ => rfl⟩
        rw [List.map_append, sA, Nat.sub_zero]
        have hmfp : (List.map (fun i =>
              ((shuffle (coordProduct mx my mz)).getD i (0, 0, 0), dflt))
              (List.range' (rpOuter (shuffle (coordProduct mx my mz))
                (shuffle (coordProduct mx my mz)).length data 0 0).2.2
                ((shuffle (coordProduct mx my mz)).length -
                  (rpOuter (shuffle (coordProduct mx my mz))
                    (shuffle (coordProduct mx my mz)).length data 0 0).2.2))).map
              Prod.fst =
            (List.range' (rpOuter (shuffle (coordProduct mx my mz))
              (shuffle (coordProduct mx my mz)).length data 0 0).2.2
              ((shuffle (coordProduct mx my mz)).length -
                (rpOuter (shuffle (coordProduct mx my mz))
                  (shuffle (coordProduct mx my mz)).length data 0 0).2.2)).map
              (fun i => (shuffle (coordProduct mx my mz)).getD i (0, 0, 0)) := by
          rw [List.map_map]
          rfl
        rw [hmfp]
        have := range'_map_append
          (fun i => (shuffle (coordProduct mx my mz)).getD i (0, 0, 0))
          0 (rpOuter (shuffle (coordProduct mx my mz))
            (shuffle (coordProduct mx my mz)).length data 0 0).2.2
          (shuffle (coordProduct mx my mz)).length (Nat.zero_le _) sD
        rw [Nat.sub_zero] at this
        rw [this, Nat.sub_zero]
      · rw [if_neg (by intro hco; exact hlt hco.2)]
        refine ⟨(shuffle (coordProduct mx my mz)).length, Nat.le_refl _, ?_,
          fun _ => rfl⟩
        rw [sA, Nat.sub_zero]
        have : (rpOuter (shuffle (coordProduct mx my mz))
            (shuffle (coordProduct mx my mz)).length data 0 0).2.2 =
            (shuffle (coordProduct mx my mz)).length := by omega
        rw [this]
    · rw [if_neg (by intro hco; exact hfill hco.1)]
      refine ⟨(rpOuter (shuffle (coordProduct mx my mz))
        (shuffle (coordProduct mx my mz)).length data 0 0).2.2, sD, ?_, ?_⟩
      · rw [sA, Nat.sub_zero]
      · intro hco
        exact absurd hco hfill

/-- With fill-empty on, the randomized-position result has exactly as many
entries as the shuffled coordinate list. -/
theorem rp_fill_length (data : List Nat) (mx my mz dflt : Nat)
    (shuffle : List Coord → List Coord) :
    (binary_to_3d_random_positions data (mx, my, mz) true dflt
        shuffle).1.length = (shuffle (coordProduct mx my mz)).length := by
  obtain ⟨K, hK, hmap, hfill⟩ := rp_char data mx my mz true dflt shuffle
  have hlen : (binary_to_3d_random_positions data (mx, my, mz) true dflt
      shuffle).1.length =
      ((binary_to_3d_random_positions data (mx, my, mz) true dflt
        shuffle).1.map Prod.fst).length := by
    rw [List.length_map]
  rw [hlen, hmap, List.length_map, List.length_range']
  exact hfill rfl

/-- Every coordinate produced by the randomized-position strategy is an
element of the shuffled coordinate list. -/
theorem rp_coords_subset (data : List Nat) (mx my mz : Nat) (fill : Bool)
    (dflt : Nat) (shuffle : List Coord → List Coord) :
    ∀ e ∈ (binary_to_3d_random_positions data (mx, my, mz) fill dflt
        shuffle).1,
      e.1 ∈ shuffle (coordProduct mx my mz) := by
  obtain ⟨K, hK, hmap, hfill⟩ := rp_char data mx my mz fill dflt shuffle
  intro e he
  have hmem : e.1 ∈ (binary_to_3d_random_positions data (mx, my, mz) fill dflt
      shuffle).1.map Prod.fst := List.mem_map_of_mem Prod.fst he
  rw [hmap] at hmem
  obtain ⟨i, hi, hie⟩ := List.mem_map.mp hmem
  rw [List.mem_range'_1] at hi
  have hilen : i < (shuffle (coordProduct mx my mz)).length := by omega
  rw [← hie, List.getD_eq_getElem _ _ hilen]
  exact List.getElem_mem hilen

/-- When the shuffled list has no duplicates, no two entries of the
randomized-position result share a coordinate. -/
theorem rp_coords_nodup (data : List Nat) (mx my mz : Nat) (fill : Bool)
    (dflt : Nat) (shuffle : List Coord → List Coord)
    (hnd : (shuffle (coordProduct mx my mz)).Nodup) :
    ((binary_to_3d_random_positions data (mx, my, mz) fill dflt
        shuffle).1.map Prod.fst).Nodup := by
  obtain ⟨K, hK, hmap, hfill⟩ := rp_char data mx my mz fill dflt shuffle
  rw [hmap]
  apply List.Nodup.map_on
  · intro i hi j hj hij
    rw [List.mem_range'_1] at hi hj
    have hiL : i < (shuffle (coordProduct mx my mz)).length := by omega
    have hjL : j < (shuffle (coordProduct mx my mz)).length := by omega
    rw [List.getD_eq_getElem _ _ hiL, List.getD_eq_getElem _ _ hjL] at hij
    exact (hnd.getElem_inj_iff).mp hij
  · exact List.nodup_range' _ _

/-- Shuffled coordinates not covered by the consumed bits (the
fill-empty-off result) appear with the default bit in the fill-empty-on
randomized-position result. -/
theorem rp_unassigned_default (data : List Nat) (mx my mz dflt : Nat)
    (shuffle : List Coord → List Coord) :
    ∀ c ∈ shuffle (coordProduct mx my mz),
      c ∉ (binary_to_3d_random_positions data (mx, my, mz) false dflt
        shuffle).1.map Prod.fst →
      (c, dflt) ∈ (binary_to_3d_random_positions data (mx, my, mz) true dflt
        shuffle).1 := by
  obtain ⟨sA, sB, sC, sD, sE, sF, sG⟩ :=
    rpOuter_spec (shuffle (coordProduct mx my mz))
      (shuffle (coordProduct mx my mz)).length data 0 0 (Nat.zero_le _)
  intro c hc hnc
  obtain ⟨i, hilen, hie⟩ := List.mem_iff_getElem.mp hc
  have hmem : ∀ k, i < k →
      c ∈ (List.range' 0 k).map
        (fun j => (shuffle (coordProduct mx my mz)).getD j (0, 0, 0)) := by
    intro k hk
    rw [List.mem_map]
    refine ⟨i, ?_, ?_⟩
    · rw [List.mem_range'_1]
      omega
    · rw [List.getD_eq_getElem _ _ hilen, hie]
  unfold binary_to_3d_random_positions at hnc ⊢
  dsimp only at hnc ⊢
  cases hopt : (rpOuter (shuffle (coordProduct mx my mz))
      (shuffle (coordProduct mx my mz)).length data 0 0).2.1 with
  | some b =>
    rw [hopt] at hnc
    obtain ⟨k1, k2⟩ := sF b hopt
    exfalso
    apply hnc
    rw [sA, Nat.sub_zero, k1]
    exact hmem _ hilen
  | none =>
    rw [hopt] at hnc
    dsimp only at hnc ⊢
    rw [if_neg (by simp)] at hnc
    have hge : (rpOuter (shuffle (coordProduct mx my mz))
        (shuffle (coordProduct mx my mz)).length data 0 0).2.2 ≤ i := by
      by_contra hcon
      apply hnc
      rw [sA, Nat.sub_zero]
      exact hmem _ (by omega)
    rw [if_pos ⟨rfl, by omega⟩]
    apply List.mem_append_right
    rw [List.mem_map]
    refine ⟨i, ?_, ?_⟩
    · rw [List.mem_range'_1]
      omega
    · rw [List.getD_eq_getElem _ _ hilen, hie]

/-- The randomized-position diagnostic pair is `(len - 1, len)` whenever
the whole input fits in the shuffled list. -/
theorem rp_diag (data : List Nat) (mx my mz : Nat) (fill : Bool) (dflt : Nat)
    (shuffle : List Coord → List Coord)
    (h8 : 8 * data.length ≤ (shuffle (coordProduct mx my mz)).length) :
    (binary_to_3d_random_positions data (mx, my, mz) fill dflt shuffle).2 =
      ((data.length : Int) - 1, data.length) := by
  obtain ⟨sA, sB, sC, sD, sE, sF, sG⟩ :=
    rpOuter_spec (shuffle (coordProduct mx my mz))
      (shuffle (coordProduct mx my mz)).length data 0 0 (Nat.zero_le _)
  unfold binary_to_3d_random_positions
  dsimp only
  cases hopt : (rpOuter (shuffle (coordProduct mx my mz))
      (shuffle (coordProduct mx my mz)).length data 0 0).2.1 with
  | some b =>
    obtain ⟨k1, k2⟩ := sF b hopt
    exfalso
    omega
  | none =>
    rfl

/-! ### Randomized-assignment strategy invariants -/

theorem dictInsert_fst {d : List (Coord × Nat)} {k : Coord} {v : Nat} :
    ∀ p ∈ dictInsert d k v, p.1 = k ∨ p.1 ∈ d.map Prod.fst := by
  intro p hp
  unfold dictInsert at hp
  by_cases hany : d.any (fun q => decide (q.1 = k)) = true
  · rw [if_pos hany] at hp
    obtain ⟨q, hq, hqe⟩ := List.mem_map.mp hp
    by_cases hqk : q.1 = k
    · left
      rw [← hqe, if_pos hqk]
    · right
      rw [← hqe, if_neg hqk]
      exact List.mem_map_of_mem Prod.fst hq
  · rw [if_neg hany] at hp
    rcases List.mem_append.mp hp with hin | hin
    · right
      exact List.mem_map_of_mem Prod.fst hin
    · left
      have hpkv : p = (k, v) := by simpa using hin
      rw [hpkv]

theorem raInner_keys (draws : Nat → Coord) (total : Nat) (grid : List Coord)
    (hdr : ∀ i, draws i ∈ grid) (bits : List Nat) :
    ∀ cnt d, (∀ p ∈ d, p.1 ∈ grid) →
      ∀ p ∈ (raInner draws total bits cnt d).1, p.1 ∈ grid := by
  induction bits with
  | nil =>
    intro cnt d hd p hp
    exact hd p hp
  | cons bit rest ih =>
    intro cnt d hd p hp
    have hd2 : ∀ q ∈ dictInsert d (draws cnt) bit, q.1 ∈ grid := by
      intro q hq
      rcases dictInsert_fst q hq with hk | hk
      · rw [hk]
        exact hdr cnt
      · obtain ⟨q2, hq2, hq2e⟩ := List.mem_map.mp hk
        rw [← hq2e]
        exact hd q2 hq2
    by_cases hge : cnt + 1 ≥ total
    · simp only [raInner] at hp
      rw [if_pos hge] at hp
      exact hd2 p hp
    · simp only [raInner] at hp
      rw [if_neg hge] at hp
      exact ih (cnt + 1) _ hd2 p hp

theorem raOuter_keys (draws : Nat → Coord) (total : Nat) (grid : List Coord)
    (hdr : ∀ i, draws i ∈ grid) (data : List Nat) :
    ∀ cnt d, (∀ p ∈ d, p.1 ∈ grid) →
      ∀ p ∈ (raOuter draws total data cnt d).1, p.1 ∈ grid := by
  induction data with
  | nil =>
    intro cnt d hd p hp
    exact hd p hp
  | cons byte rest ih =>
    intro cnt d hd p hp
    have hinner := raInner_keys draws total grid hdr (byteBits byte) cnt d hd
    simp only [raOuter] at hp
    by_cases hfl : (raInner draws total (byteBits byte) cnt d).2.2 = true
    · rw [if_pos hfl] at hp
      exact hinner p hp
    · rw [if_neg hfl] at hp
      exact ih _ _ hinner p hp

theorem dictGet_of_not_mem {d : List (Coord × Nat)} {c : Coord} {dflt : Nat}
    (h : c ∉ d.map Prod.fst) : dictGet d c dflt = dflt := by
  unfold dictGet
  cases hf : d.find? (fun p => decide (p.1 = c)) with
  | none => rfl
  | some q =>
    exfalso
    apply h
    have hq := List.find?_some hf
    have hqm := List.mem_of_find?_eq_some hf
    rw [List.mem_map]
    exact ⟨q, hqm, by simpa using hq⟩

/-- With fill-empty on, the randomized-assignment result lists the whole
coordinate product, each cell with its dictionary value or the default. -/
theorem ra_fill_result (data : List Nat) (mx my mz dflt : Nat)
    (draws : Nat → Coord) :
    (binary_to_3d_random_assignment data (mx, my, mz) true dflt draws).1 =
      (coordProduct mx my mz).map
        (fun c => (c, dictGet (raOuter draws (mx * my * mz) data 0 []).1
          c dflt)) := by
  unfold binary_to_3d_random_assignment
  dsimp only
  rw [if_pos rfl]

theorem ra_nofill_result (data : List Nat) (mx my mz dflt : Nat)
    (draws : Nat → Coord) :
    (binary_to_3d_random_assignment data (mx, my, mz) false dflt draws).1 =
      (raOuter draws (mx * my * mz) data 0 []).1 := by
  unfold binary_to_3d_random_assignment
  dsimp only
  rw [if_neg (by simp)]

theorem ra_fill_length (data : List Nat) (mx my mz dflt : Nat)
    (draws : Nat → Coord) :
    (binary_to_3d_random_assignment data (mx, my, mz) true dflt
        draws).1.length = mx * my * mz := by
  rw [ra_fill_result, List.length_map, coordProduct_length]

theorem ra_coords_subset (data : List Nat) (mx my mz : Nat) (fill : Bool)
    (dflt : Nat) (draws : Nat → Coord)
    (hdr : ∀ i, draws i ∈ coordProduct mx my mz) :
    ∀ e ∈ (binary_to_3d_random_assignment data (mx, my, mz) fill dflt
        draws).1, e.1 ∈ coordProduct mx my mz := by
  cases fill with
  | true =>
    rw [ra_fill_result]
    intro e he
    obtain ⟨c, hc, hce⟩ := List.mem_map.mp he
    rw [← hce]
    exact hc
  | false =>
    rw [ra_nofill_result]
    exact raOuter_keys draws (mx * my * mz) (coordProduct mx my mz) hdr data
      0 [] (by intro p hp; cases hp)

/-- Grid cells missing from the dictionary (the fill-empty-off result)
appear with the default bit in the fill-empty-on result. -/
theorem ra_unassigned_default (data : List Nat) (mx my mz dflt : Nat)
    (draws : Nat → Coord) :
    ∀ c ∈ coordProduct mx my mz,
      c ∉ (binary_to_3d_random_assignment data (mx, my, mz) false dflt
        draws).1.map Prod.fst →
      (c, dflt) ∈ (binary_to_3d_random_assignment data (mx, my, mz) true dflt
        draws).1 := by
  intro c hc hnc
  rw [ra_nofill_result] at hnc
  rw [ra_fill_result, List.mem_map]
  refine ⟨c, hc, ?_⟩
  rw [dictGet_of_not_mem hnc]

/-- The randomized-assignment diagnostic pair is always `(len - 1, len)`. -/
theorem ra_diag (data : List Nat) (mx my mz : Nat) (fill : Bool) (dflt : Nat)
    (draws : Nat → Coord) :
    (binary_to_3d_random_assignment data (mx, my, mz) fill dflt draws).2 =
      ((data.length : Int) - 1, data.length) := by
  unfold binary_to_3d_random_assignment
  dsimp only

/-- On a 1-cell grid, only the first input bit is ever drawn: the loop
breaks as soon as `bit_count` reaches Capacity = 1, so the cell holds the
first bit of the first byte. -/
theorem ra_capacity_one (b : Nat) (data : List Nat) (fill : Bool)
    (dflt : Nat) (draws : Nat → Coord) (h0 : draws 0 = (0, 0, 0)) :
    (binary_to_3d_random_assignment (b :: data) (1, 1, 1) fill dflt
        draws).1 = [((0, 0, 0), (b >>> 7) &&& 1)] := by
  obtain ⟨tl, htl⟩ : ∃ tl, byteBits b = ((b >>> 7) &&& 1) :: tl := by
    refine ⟨(List.range 7).map (fun i => (b >>> (7 - (i + 1))) &&& 1), ?_⟩
    rw [byteBits, List.range_succ_eq_map, List.map_cons, List.map_map]
    rfl
  have hdict : dictInsert [] (draws 0) ((b >>> 7) &&& 1) =
      [((0, 0, 0), (b >>> 7) &&& 1)] := by
    rw [h0]
    rfl
  have h1 : raInner draws 1 (((b >>> 7) &&& 1) :: tl) 0 [] =
      (dictInsert [] (draws 0) ((b >>> 7) &&& 1), 1, true) := by
    rw [raInner]
    simp
  have houter : raOuter draws 1 (b :: data) 0 [] =
      ([((0, 0, 0), (b >>> 7) &&& 1)], 1) := by
    rw [raOuter, htl, h1, hdict]
    rfl
  unfold binary_to_3d_random_assignment
  dsimp only
  rw [show (1 : Nat) * 1 * 1 = 1 by rfl, houter]
  cases fill with
  | true =>
    rw [if_pos rfl]
    rfl
  | false =>
    rw [if_neg (by simp)]

/-! ### Empty-input behaviour -/

theorem seq_nofill_empty (mx my mz dflt : Nat) :
    (binary_to_3d_sequential [] (mx, my, mz) false dflt).1 = [] := by
  unfold binary_to_3d_sequential seqOuter
  dsimp only
  rw [if_neg (by simp)]

theorem rp_nofill_empty (mx my mz dflt : Nat)
    (shuffle : List Coord → List Coord) :
    (binary_to_3d_random_positions [] (mx, my, mz) false dflt shuffle).1 = [] := by
  unfold binary_to_3d_random_positions rpOuter
  dsimp only
  rw [if_neg (by simp)]

theorem ra_nofill_empty (mx my mz dflt : Nat) (draws : Nat → Coord) :
    (binary_to_3d_random_assignment [] (mx, my, mz) false dflt draws).1 = [] := by
  rw [ra_nofill_result]
  rfl

theorem seq_empty_all_default (mx my mz dflt : Nat) :
    ∀ e ∈ (binary_to_3d_sequential [] (mx, my, mz) true dflt).1,
      e.2 = dflt := by
  intro e he
  unfold binary_to_3d_sequential seqOuter at he
  dsimp only at he
  by_cases hC : 0 < mx * my * mz
  · rw [if_pos ⟨rfl, hC⟩] at he
    simp only [List.nil_append] at he
    obtain ⟨p, _, hpe⟩ := List.mem_map.mp he
    rw [← hpe]
  · rw [if_neg (fun hco => hC hco.2)] at he
    cases he

theorem rp_empty_all_default (mx my mz dflt : Nat)
    (shuffle : List Coord → List Coord) :
    ∀ e ∈ (binary_to_3d_random_positions [] (mx, my, mz) true dflt
      shuffle).1, e.2 = dflt := by
  intro e he
  unfold binary_to_3d_random_positions rpOuter at he
  dsimp only at he
  by_cases hC : 0 < (shuffle (coordProduct mx my mz)).length
  · rw [if_pos ⟨rfl, hC⟩] at he
    simp only [List.nil_append] at he
    obtain ⟨p, _, hpe⟩ := List.mem_map.mp he
    rw [← hpe]
  · rw [if_neg (fun hco => hC hco.2)] at he
    cases he

theorem ra_empty_all_default (mx my mz dflt : Nat) (draws : Nat → Coord) :
    ∀ e ∈ (binary_to_3d_random_assignment [] (mx, my, mz) true dflt
      draws).1, e.2 = dflt := by
  intro e he
  rw [ra_fill_result] at he
  obtain ⟨c, _, hce⟩ := List.mem_map.mp he
  rw [← hce]
  rfl

/-! ### The caller on configuration errors -/

theorem binary_to_3d_zero_dim_ok (fill : Bool) (dflt : Nat)
    (shuffle : List Coord → List Coord) (draws : Nat → Coord) :
    binary_to_3d "sequential" [] (0, 1, 1) fill dflt shuffle draws =
      Except.ok ([], (-1 : Int), 0) := by
  unfold binary_to_3d
  rw [if_pos rfl]
  have hseq : binary_to_3d_sequential [] (0, 1, 1) fill dflt =
      ([], (-1 : Int), 0) := by
    unfold binary_to_3d_sequential seqOuter
    dsimp only
    rw [if_neg (fun hco => by omega)]
    rfl
  rw [hseq]
  dsimp only
  rw [if_neg (by decide)]

theorem distinctCoords_le {mx my mz : Nat} {l : List Entry}
    (h : ∀ e ∈ l, e.1 ∈ coordProduct mx my mz) :
    distinctCoords l ≤ mx * my * mz := by
  unfold distinctCoords
  calc (l.map Prod.fst).toFinset.card
      ≤ (coordProduct mx my mz).toFinset.card := by
        apply Finset.card_le_card
        intro c hc
        rw [List.mem_toFinset] at hc ⊢
        obtain ⟨e, he, rfl⟩ := List.mem_map.mp hc
        exact h e he
    _ ≤ (coordProduct mx my mz).length := List.toFinset_card_le _
    _ = mx * my * mz := coordProduct_length mx my mz

/-! ### Claim theorems -/

/-- C1, counterexample: on the 1-cell grid (1,1,1) with input byte 0x40
(bits 0,1,0,0,0,0,0,0) and every draw forced onto (0,0,0), the final
assignment stores bit 0 — the FIRST input bit — even though the second
input bit is 1. The claim predicts the second bit, so it is false: the
loop breaks after Capacity = 1 draws and never consumes the second bit. -/
theorem claim_C1_counterexample :
    (binary_to_3d_random_assignment [64] (1, 1, 1) true 0
      (fun _ => (0, 0, 0))).1 = [((0, 0, 0), 0)] ∧
    (64 >>> 6) &&& 1 = 1 ∧ (64 >>> 7) &&& 1 = 0 := by
  refine ⟨?_, by decide, by decide⟩
  decide

/-- C1 (amended): for randomized-assignment on dimensions (1,1,1)
(Capacity 1) with an input of at least one byte and the draw oracle forced
onto the single coordinate, the final Assignment maps that coordinate to
the FIRST input bit: processing stops after Capacity = 1 draws, so no
later bit is ever drawn (no last-write-wins overwrite can happen). -/
theorem claim_C1 (b : Nat) (data : List Nat) (fill : Bool) (dflt : Nat)
    (draws : Nat → Coord) (h0 : draws 0 = (0, 0, 0)) :
    (binary_to_3d_random_assignment (b :: data) (1, 1, 1) fill dflt
      draws).1 = [((0, 0, 0), (b >>> 7) &&& 1)] :=
  ra_capacity_one b data fill dflt draws h0

theorem claim_C1_witness :
    (fun _ : Nat => ((0, 0, 0) : Coord)) 0 = (0, 0, 0) ∧
    (binary_to_3d_random_assignment (64 :: [3]) (1, 1, 1) true 0
      (fun _ => (0, 0, 0))).1 = [((0, 0, 0), (64 >>> 7) &&& 1)] :=
  ⟨rfl, claim_C1 64 [3] true 0 (fun _ => (0, 0, 0)) rfl⟩

/-- C2, counterexample: sequential mode, input [0xB1, 0x03] (16 bits),
dimensions (1,2,1) with Capacity 2, fill-empty ON: truncation occurs
(16 > 2) but the caller's warning condition (source line 252) is false
because of the `and not fill_empty` conjunct — so no truncation notice is
reported, contradicting "regardless of the fill-empty flag". -/
theorem claim_C2_counterexample :
    8 * ([177, 3] : List Nat).length > 1 * 2 * 1 ∧
    truncationWarning
      (binary_to_3d_sequential [177, 3] (1, 2, 1) true 0).2.1
      (binary_to_3d_sequential [177, 3] (1, 2, 1) true 0).2.2 true = false := by
  refine ⟨by decide, ?_⟩
  decide

/-- C2 (amended): the truncation notice is reported only when fill-empty
is OFF and the returned last-consumed-byte index is below total − 1. In
particular with fill-empty on no strategy ever triggers it, and
randomized-assignment never triggers it at all (its diagnostic is always
total − 1); with fill-empty off the sequential strategy does trigger it
when truncation strikes before the final byte, as the concrete instance
shows. -/
theorem claim_C2 :
    (∀ (data : List Nat) (mx my mz dflt : Nat)
        (shuffle : List Coord → List Coord) (draws : Nat → Coord),
      truncationWarning
        (binary_to_3d_sequential data (mx, my, mz) true dflt).2.1
        (binary_to_3d_sequential data (mx, my, mz) true dflt).2.2
        true = false ∧
      truncationWarning
        (binary_to_3d_random_positions data (mx, my, mz) true dflt shuffle).2.1
        (binary_to_3d_random_positions data (mx, my, mz) true dflt shuffle).2.2
        true = false ∧
      truncationWarning
        (binary_to_3d_random_assignment data (mx, my, mz) true dflt draws).2.1
        (binary_to_3d_random_assignment data (mx, my, mz) true dflt draws).2.2
        true = false) ∧
    (∀ (data : List Nat) (mx my mz : Nat) (fill : Bool) (dflt : Nat)
        (draws : Nat → Coord),
      truncationWarning
        (binary_to_3d_random_assignment data (mx, my, mz) fill dflt draws).2.1
        (binary_to_3d_random_assignment data (mx, my, mz) fill dflt draws).2.2
        fill = false) ∧
    truncationWarning
      (binary_to_3d_sequential [177, 3] (1, 2, 1) false 0).2.1
      (binary_to_3d_sequential [177, 3] (1, 2, 1) false 0).2.2
      false = true := by
  refine ⟨?_, ?_, by decide⟩
  · intro data mx my mz dflt shuffle draws
    refine ⟨?_, ?_, ?_⟩ <;> simp [truncationWarning]
  · intro data mx my mz fill dflt draws
    have hd := ra_diag data mx my mz fill dflt draws
    have h1 : (binary_to_3d_random_assignment data (mx, my, mz) fill dflt
        draws).2.1 = (data.length : Int) - 1 := by rw [hd]
    have h2 : (binary_to_3d_random_assignment data (mx, my, mz) fill dflt
        draws).2.2 = data.length := by rw [hd]
    rw [h1, h2]
    simp [truncationWarning]

/-- C3: for every strategy, input and positive dimensions (the shuffle
permuting the grid, the draws landing in it), the number of distinct
coordinates in the result is at most Capacity; with fill-empty on the
result has exactly Capacity entries, and every grid cell missed by the
consumed bits (the fill-empty-off result) carries the default bit. -/
theorem claim_C3 (data : List Nat) (mx my mz : Nat) (fill : Bool)
    (dflt : Nat) (shuffle : List Coord → List Coord) (draws : Nat → Coord)
    (hmx : 0 < mx) (hmy : 0 < my) (hmz : 0 < mz)
    (hsh : (shuffle (coordProduct mx my mz)).Perm (coordProduct mx my mz))
    (hdr : ∀ i, draws i ∈ coordProduct mx my mz) :
    (distinctCoords (binary_to_3d_sequential data (mx, my, mz) fill
        dflt).1 ≤ mx * my * mz ∧
      distinctCoords (binary_to_3d_random_positions data (mx, my, mz) fill
        dflt shuffle).1 ≤ mx * my * mz ∧
      distinctCoords (binary_to_3d_random_assignment data (mx, my, mz) fill
        dflt draws).1 ≤ mx * my * mz) ∧
    ((binary_to_3d_sequential data (mx, my, mz) true dflt).1.length =
        mx * my * mz ∧
      (binary_to_3d_random_positions data (mx, my, mz) true dflt
        shuffle).1.length = mx * my * mz ∧
      (binary_to_3d_random_assignment data (mx, my, mz) true dflt
        draws).1.length = mx * my * mz) ∧
    (∀ c ∈ coordProduct mx my mz,
      (c ∉ (binary_to_3d_sequential data (mx, my, mz) false
          dflt).1.map Prod.fst →
        (c, dflt) ∈ (binary_to_3d_sequential data (mx, my, mz) true
          dflt).1) ∧
      (c ∉ (binary_to_3d_random_positions data (mx, my, mz) false dflt
          shuffle).1.map Prod.fst →
        (c, dflt) ∈ (binary_to_3d_random_positions data (mx, my, mz) true
          dflt shuffle).1) ∧
      (c ∉ (binary_to_3d_random_assignment data (mx, my, mz) false dflt
          draws).1.map Prod.fst →
        (c, dflt) ∈ (binary_to_3d_random_assignment data (mx, my, mz) true
          dflt draws).1)) := by
  refine ⟨⟨?_, ?_, ?_⟩, ⟨?_, ?_, ?_⟩, ?_⟩
  · exact distinctCoords_le (seq_coords_subset data mx my mz fill dflt hmx hmy hmz)
  · refine distinctCoords_le ?_
    intro e he
    exact hsh.mem_iff.mp (rp_coords_subset data mx my mz fill dflt shuffle e he)
  · exact distinctCoords_le (ra_coords_subset data mx my mz fill dflt draws hdr)
  · exact seq_fill_length data mx my mz dflt hmx hmy hmz
  · rw [rp_fill_length, hsh.length_eq, coordProduct_length]
  · exact ra_fill_length data mx my mz dflt draws
  · intro c hc
    refine ⟨?_, ?_, ?_⟩
    · exact seq_unassigned_default data mx my mz dflt hmx hmy hmz c hc
    · exact rp_unassigned_default data mx my mz dflt shuffle c
        (hsh.mem_iff.mpr hc)
    · exact ra_unassigned_default data mx my mz dflt draws c hc

theorem claim_C3_witness :
    ((0 : Nat) < 2 ∧
      ((fun l : List Coord => l) (coordProduct 2 2 2)).Perm
        (coordProduct 2 2 2) ∧
      (∀ i : Nat, (fun _ : Nat => ((0, 0, 0) : Coord)) i ∈
        coordProduct 2 2 2)) ∧
    ((distinctCoords (binary_to_3d_sequential [176] (2, 2, 2) true
        0).1 ≤ 2 * 2 * 2 ∧
      distinctCoords (binary_to_3d_random_positions [176] (2, 2, 2) true
        0 (fun l => l)).1 ≤ 2 * 2 * 2 ∧
      distinctCoords (binary_to_3d_random_assignment [176] (2, 2, 2) true
        0 (fun _ => (0, 0, 0))).1 ≤ 2 * 2 * 2) ∧
    ((binary_to_3d_sequential [176] (2, 2, 2) true 0).1.length =
        2 * 2 * 2 ∧
      (binary_to_3d_random_positions [176] (2, 2, 2) true 0
        (fun l => l)).1.length = 2 * 2 * 2 ∧
      (binary_to_3d_random_assignment [176] (2, 2, 2) true 0
        (fun _ => (0, 0, 0))).1.length = 2 * 2 * 2) ∧
    (∀ c ∈ coordProduct 2 2 2,
      (c ∉ (binary_to_3d_sequential [176] (2, 2, 2) false
          0).1.map Prod.fst →
        (c, 0) ∈ (binary_to_3d_sequential [176] (2, 2, 2) true 0).1) ∧
      (c ∉ (binary_to_3d_random_positions [176] (2, 2, 2) false 0
          (fun l => l)).1.map Prod.fst →
        (c, 0) ∈ (binary_to_3d_random_positions [176] (2, 2, 2) true 0
          (fun l => l)).1) ∧
      (c ∉ (binary_to_3d_random_assignment [176] (2, 2, 2) false 0
          (fun _ => (0, 0, 0))).1.map Prod.fst →
        (c, 0) ∈ (binary_to_3d_random_assignment [176] (2, 2, 2) true 0
          (fun _ => (0, 0, 0))).1))) :=
  ⟨⟨by decide, List.Perm.refl _,
      fun _ => show ((0, 0, 0) : Coord) ∈ coordProduct 2 2 2 by decide⟩,
    claim_C3 [176] 2 2 2 true 0 (fun l => l) (fun _ => (0, 0, 0))
      (by decide) (by decide) (by decide) (List.Perm.refl _)
      (fun _ => show ((0, 0, 0) : Coord) ∈ coordProduct 2 2 2 by decide)⟩

/-- C4: under randomized-position placement (the shuffle permuting the
grid), no two entries of the result share a coordinate — the map from
consumed bit position to coordinate is injective. -/
theorem claim_C4 (data : List Nat) (mx my mz : Nat) (fill : Bool)
    (dflt : Nat) (shuffle : List Coord → List Coord)
    (hmx : 0 < mx) (hmy : 0 < my) (hmz : 0 < mz)
    (hsh : (shuffle (coordProduct mx my mz)).Perm (coordProduct mx my mz)) :
    ((binary_to_3d_random_positions data (mx, my, mz) fill dflt
      shuffle).1.map Prod.fst).Nodup :=
  rp_coords_nodup data mx my mz fill dflt shuffle
    (hsh.nodup_iff.mpr (coordProduct_nodup mx my mz))

theorem claim_C4_witness :
    ((0 : Nat) < 2 ∧
      ((fun l : List Coord => l) (coordProduct 2 2 2)).Perm
        (coordProduct 2 2 2)) ∧
    ((binary_to_3d_random_positions [176] (2, 2, 2) true 0
      (fun l => l)).1.map Prod.fst).Nodup :=
  ⟨⟨by decide, List.Perm.refl _⟩,
    claim_C4 [176] 2 2 2 true 0 (fun l => l) (by decide) (by decide)
      (by decide) (List.Perm.refl _)⟩

/-- C5: decoding a linear index into (x, y, z) and re-encoding it as
x + y*max_x + z*max_x*max_y yields the index again, for all positive
dimensions and every index below Capacity. -/
theorem claim_C5 (mx my mz i : Nat) (hmx : 0 < mx) (hmy : 0 < my)
    (hmz : 0 < mz) (hi : i < mx * my * mz) :
    encode mx my (decode mx my i) = i :=
  encode_decode_aux mx my i

theorem claim_C5_witness :
    ((0 : Nat) < 2 ∧ (5 : Nat) < 2 * 2 * 2) ∧
    encode 2 2 (decode 2 2 5) = 5 :=
  ⟨⟨by decide, by decide⟩,
    claim_C5 2 2 2 5 (by decide) (by decide) (by decide) (by decide)⟩

/-- C6: sequential placement of [0xB0] on (2,2,2) with fill-empty on and
default 0 yields exactly 8 entries with bits 1,0,1,1,0,0,0,0 at row-major
positions 0..7, e.g. (0,0,0)=1, (1,0,0)=0, (0,0,1)=0; the diagnostic is
(0, 1) since the one byte was fully consumed. -/
theorem claim_C6 :
    (binary_to_3d_sequential [176] (2, 2, 2) true 0).1.length = 8 ∧
    binary_to_3d_sequential [176] (2, 2, 2) true 0 =
      ([((0, 0, 0), 1), ((1, 0, 0), 0), ((0, 1, 0), 1), ((1, 1, 0), 1),
        ((0, 0, 1), 0), ((1, 0, 1), 0), ((0, 1, 1), 0), ((1, 1, 1), 0)],
        (0 : Int), 1) := by
  refine ⟨by decide, ?_⟩
  decide

/-- C7: randomized-position placement with a fixed integer seed is
deterministic: two runs with identical inputs, dimensions, fill policy and
seed produce identical results (the seeded PRNG being a deterministic
function of the seed). -/
theorem claim_C7 (data1 data2 : List Nat) (dims1 dims2 : Coord)
    (fill1 fill2 : Bool) (dflt1 dflt2 seed1 seed2 : Nat)
    (hdata : data1 = data2) (hdims : dims1 = dims2) (hfill : fill1 = fill2)
    (hdflt : dflt1 = dflt2) (hseed : seed1 = seed2) :
    binary_to_3d_random_positions_seeded data1 dims1 fill1 dflt1 seed1 =
      binary_to_3d_random_positions_seeded data2 dims2 fill2 dflt2 seed2 := by
  subst hdata
  subst hdims
  subst hfill
  subst hdflt
  subst hseed
  rfl

theorem claim_C7_witness :
    (([176] : List Nat) = [176] ∧ (42 : Nat) = 42) ∧
    binary_to_3d_random_positions_seeded [176] (2, 2, 2) true 0 42 =
      binary_to_3d_random_positions_seeded [176] (2, 2, 2) true 0 42 :=
  ⟨⟨rfl, rfl⟩,
    claim_C7 [176] [176] (2, 2, 2) (2, 2, 2) true true 0 0 42 42
      rfl rfl rfl rfl rfl⟩

/-- C8, counterexample: with dimension (0,1,1) (a zero dimension) and
empty input, the core does NOT fail with a configuration error — it
returns a successful empty result, refuting "fails with
InvalidConfiguration before any processing starts". -/
theorem claim_C8_counterexample :
    ¬ ∃ err, binary_to_3d "sequential" [] (0, 1, 1) true 0 (fun l => l)
      (fun _ => (0, 0, 0)) = Except.error err := by
  rintro ⟨err, herr⟩
  rw [binary_to_3d_zero_dim_ok] at herr
  cases herr

/-- C8 (amended): the core performs no dimension validation; an unknown
mapping mode is the only configuration error. With a zero dimension and
empty input, sequential mode succeeds with an empty Assignment and
diagnostics (-1, 0), whatever the fill policy. -/
theorem claim_C8 (fill : Bool) (dflt : Nat)
    (shuffle : List Coord → List Coord) (draws : Nat → Coord) :
    binary_to_3d "sequential" [] (0, 1, 1) fill dflt shuffle draws =
      Except.ok ([], (-1 : Int), 0) :=
  binary_to_3d_zero_dim_ok fill dflt shuffle draws

/-- C9: empty input is not an error: with fill-empty off each strategy
returns the empty Assignment; with fill-empty on each returns a grid of
exactly Capacity cells, all carrying the default bit, covering every
coordinate. -/
theorem claim_C9 (mx my mz dflt : Nat) (shuffle : List Coord → List Coord)
    (draws : Nat → Coord) (hmx : 0 < mx) (hmy : 0 < my) (hmz : 0 < mz)
    (hsh : (shuffle (coordProduct mx my mz)).Perm (coordProduct mx my mz)) :
    ((binary_to_3d_sequential [] (mx, my, mz) false dflt).1 = [] ∧
      (binary_to_3d_random_positions [] (mx, my, mz) false dflt
        shuffle).1 = [] ∧
      (binary_to_3d_random_assignment [] (mx, my, mz) false dflt
        draws).1 = []) ∧
    ((binary_to_3d_sequential [] (mx, my, mz) true dflt).1.length =
        mx * my * mz ∧
      (binary_to_3d_random_positions [] (mx, my, mz) true dflt
        shuffle).1.length = mx * my * mz ∧
      (binary_to_3d_random_assignment [] (mx, my, mz) true dflt
        draws).1.length = mx * my * mz) ∧
    ((∀ e ∈ (binary_to_3d_sequential [] (mx, my, mz) true dflt).1,
        e.2 = dflt) ∧
      (∀ e ∈ (binary_to_3d_random_positions [] (mx, my, mz) true dflt
        shuffle).1, e.2 = dflt) ∧
      (∀ e ∈ (binary_to_3d_random_assignment [] (mx, my, mz) true dflt
        draws).1, e.2 = dflt)) ∧
    (∀ c ∈ coordProduct mx my mz,
      (c, dflt) ∈ (binary_to_3d_sequential [] (mx, my, mz) true dflt).1 ∧
      (c, dflt) ∈ (binary_to_3d_random_positions [] (mx, my, mz) true dflt
        shuffle).1 ∧
      (c, dflt) ∈ (binary_to_3d_random_assignment [] (mx, my, mz) true dflt
        draws).1) := by
  refine ⟨⟨seq_nofill_empty mx my mz dflt, rp_nofill_empty mx my mz dflt
      shuffle, ra_nofill_empty mx my mz dflt draws⟩,
    ⟨seq_fill_length [] mx my mz dflt hmx hmy hmz, ?_,
      ra_fill_length [] mx my mz dflt draws⟩,
    ⟨seq_empty_all_default mx my mz dflt,
      rp_empty_all_default mx my mz dflt shuffle,
      ra_empty_all_default mx my mz dflt draws⟩, ?_⟩
  · rw [rp_fill_length, hsh.length_eq, coordProduct_length]
  · intro c hc
    refine ⟨?_, ?_, ?_⟩
    · refine seq_unassigned_default [] mx my mz dflt hmx hmy hmz c hc ?_
      rw [seq_nofill_empty]
      simp
    · refine rp_unassigned_default [] mx my mz dflt shuffle c
        (hsh.mem_iff.mpr hc) ?_
      rw [rp_nofill_empty]
      simp
    · refine ra_unassigned_default [] mx my mz dflt draws c hc ?_
      rw [ra_nofill_empty]
      simp

theorem claim_C9_witness :
    ((0 : Nat) < 1 ∧
      ((fun l : List Coord => l) (coordProduct 1 1 1)).Perm
        (coordProduct 1 1 1)) ∧
    (binary_to_3d_sequential [] (1, 1, 1) false 0).1 = [] ∧
    (binary_to_3d_sequential [] (1, 1, 1) true 0).1.length = 1 * 1 * 1 :=
  ⟨⟨by decide, List.Perm.refl _⟩,
    ((claim_C9 1 1 1 0 (fun l => l) (fun _ => (0, 0, 0)) (by decide)
      (by decide) (by decide) (List.Perm.refl _)).1.1),
    ((claim_C9 1 1 1 0 (fun l => l) (fun _ => (0, 0, 0)) (by decide)
      (by decide) (by decide) (List.Perm.refl _)).2.1.1)⟩

/-- C10: whenever a strategy consumes all of its input bytes (8·len ≤
Capacity; unconditionally for randomized-assignment), its diagnostic pair
is (len − 1, len); on empty input every strategy returns (−1, 0), a
sentinel that is not a valid byte index. -/
theorem claim_C10 :
    (∀ (data : List Nat) (mx my mz : Nat) (fill : Bool) (dflt : Nat),
      8 * data.length ≤ mx * my * mz →
      (binary_to_3d_sequential data (mx, my, mz) fill dflt).2 =
        ((data.length : Int) - 1, data.length)) ∧
    (∀ (data : List Nat) (mx my mz : Nat) (fill : Bool) (dflt : Nat)
        (shuffle : List Coord → List Coord),
      (shuffle (coordProduct mx my mz)).Perm (coordProduct mx my mz) →
      8 * data.length ≤ mx * my * mz →
      (binary_to_3d_random_positions data (mx, my, mz) fill dflt
        shuffle).2 = ((data.length : Int) - 1, data.length)) ∧
    (∀ (data : List Nat) (mx my mz : Nat) (fill : Bool) (dflt : Nat)
        (draws : Nat → Coord),
      (binary_to_3d_random_assignment data (mx, my, mz) fill dflt
        draws).2 = ((data.length : Int) - 1, data.length)) ∧
    (∀ (mx my mz : Nat) (fill : Bool) (dflt : Nat)
        (shuffle : List Coord → List Coord) (draws : Nat → Coord),
      (binary_to_3d_sequential [] (mx, my, mz) fill dflt).2 =
        ((-1 : Int), 0) ∧
      (binary_to_3d_random_positions [] (mx, my, mz) fill dflt
        shuffle).2 = ((-1 : Int), 0) ∧
      (binary_to_3d_random_assignment [] (mx, my, mz) fill dflt
        draws).2 = ((-1 : Int), 0)) := by
  refine ⟨?_, ?_, ?_, ?_⟩
  · intro data mx my mz fill dflt h8
    exact seq_diag data mx my mz fill dflt h8
  · intro data mx my mz fill dflt shuffle hsh h8
    refine rp_diag data mx my mz fill dflt shuffle ?_
    rw [hsh.length_eq, coordProduct_length]
    exact h8
  · intro data mx my mz fill dflt draws
    exact ra_diag data mx my mz fill dflt draws
  · intro mx my mz fill dflt shuffle draws
    refine ⟨?_, ?_, ?_⟩
    · have := seq_diag [] mx my mz fill dflt (by simp)
      simpa using this
    · have := rp_diag [] mx my mz fill dflt shuffle (by simp)
      simpa using this
    · have := ra_diag [] mx my mz fill dflt draws
      simpa using this

theorem claim_C10_witness :
    8 * ([176] : List Nat).length ≤ 2 * 2 * 2 ∧
    (binary_to_3d_sequential [176] (2, 2, 2) true 0).2 =
      ((([176] : List Nat).length : Int) - 1, ([176] : List Nat).length) :=
  ⟨by decide, claim_C10.1 [176] 2 2 2 true 0 (by decide)⟩

end NVStorage
